import Mathlib

/-
Verification of the TSV record-processing engine in `src/rust/src/lib.rs`
(dbbasic-tsv).  Rust strings are modelled as their character sequences
(`List Char`); a `HashMap<String, String>` record is modelled as an
association list with overwrite-on-insert semantics, so keys stay unique
and `lookupKV` matches `HashMap::get`.  File I/O is modelled by its
observable data: a reader is the list of line-read results, a writer is
the list of emitted lines.  `f64` values are modelled abstractly as an
additive monoid and `str::parse::<f64>` as an explicit parse parameter,
since the claims about aggregation concern only which records contribute,
not rounding; concrete instances use `Int`.
-/

namespace Tsv

/-- A Rust `String` / `&str`, as its character sequence. -/
abbrev Str := List Char

/-- A record: model of `HashMap<String, String>` as an association list
with unique keys (maintained by `insertKV`). -/
abbrev Record := List (Str × Str)

/-- Model of `HashMap::get`: first (hence only) binding of the key. -/
def lookupKV {α : Type} : List (Str × α) → Str → Option α
  | [], _ => none
  | (k, v) :: rest, key => if k = key then some v else lookupKV rest key

/-- Model of `HashMap::insert`: overwrite the existing binding in place,
or append a new binding at the end. -/
def insertKV {α : Type} : List (Str × α) → Str → α → List (Str × α)
  | [], k, v => [(k, v)]
  | (k', v') :: rest, k, v =>
    if k' = k then (k, v) :: rest else (k', v') :: insertKV rest k v

/-- The key set of an association list (model of `HashMap` key set). -/
def keysOf {α : Type} (l : List (Str × α)) : List Str :=
  l.map Prod.fst

/-- Split a line at ASCII tab characters.  The result is never empty:
a line with `t` tabs has `t + 1` fields.  The segments before each tab are
exactly the slices the `memchr_iter(b'\t', ...)` loop of
`parse_tsv_line_fast` visits, and the final element is the last-field
slice `bytes[last_pos..]`. -/
def splitTabs : Str → List Str
  | [] => [[]]
  | c :: rest =>
    if c = '\t' then [] :: splitTabs rest
    else
      match splitTabs rest with
      | [] => [[c]]
      | f :: fs => (c :: f) :: fs

/-- The tab loop of `parse_tsv_line_fast` (lib.rs lines 18-27), one step
per pre-tab segment: while `col_idx < columns.len()` insert the segment at
the current column and advance `col_idx`; otherwise drop the segment.
State is `(result, col_idx)`. -/
def insertLoop (columns : List Str) : Record × Nat → List Str → Record × Nat
  | st, [] => st
  | st, f :: fs =>
    if st.2 < columns.length then
      insertLoop columns (insertKV st.1 (columns.getD st.2 []) f, st.2 + 1) fs
    else
      insertLoop columns st fs

/-- Insert `columns[i] ↦ ""` for each index `i` in the given list
(used with a contiguous index range). -/
def fillFrom (columns : List Str) : Record → List Nat → Record
  | res, [] => res
  | res, i :: is => fillFrom columns (insertKV res (columns.getD i []) []) is

/-- The fill loop of `parse_tsv_line_fast` (lib.rs lines 38-40):
`for i in start..columns.len() { result.insert(columns[i].clone(), String::new()) }`. -/
def fillEmpty (columns : List Str) (start : Nat) (res : Record) : Record :=
  fillFrom columns res (List.range' start (columns.length - start))

/-- Model of `parse_tsv_line_fast` (lib.rs lines 11-43).  The tab loop
consumes the pre-tab segments (`fields.dropLast`); the last field
(`bytes[last_pos..]`) is inserted only when a column remains and it is
nonempty (`last_pos < bytes.len()`); then the fill loop runs from
`col_idx + 1` — `col_idx` as left by the tab loop, NOT advanced by the
last-field insert — up to `columns.len()`.  The invalid-UTF-8 fallback of
the source (`unwrap_or("")`) is outside this model: lines are character
sequences, so every slice is valid text. -/
def parse_tsv_line_fast (line : Str) (columns : List Str) : Record :=
  let fields := splitTabs line
  let st := insertLoop columns ([], 0) fields.dropLast
  let lastF := fields.getLastD []
  let res :=
    if st.2 < columns.length ∧ lastF ≠ [] then
      insertKV st.1 (columns.getD st.2 []) lastF
    else st.1
  fillEmpty columns (st.2 + 1) res

/-- The per-line closure inside `parse_tsv_batch_fast` (lib.rs lines
52-77): identical to `parse_tsv_line_fast` except that it has NO fill
loop — missing trailing columns are simply absent from the record. -/
def parseBatchLine (line : Str) (columns : List Str) : Record :=
  let fields := splitTabs line
  let st := insertLoop columns ([], 0) fields.dropLast
  let lastF := fields.getLastD []
  if st.2 < columns.length ∧ lastF ≠ [] then
    insertKV st.1 (columns.getD st.2 []) lastF
  else st.1

/-- Model of `parse_tsv_batch_fast` (lib.rs lines 47-81): the rayon
`par_iter().map(..).collect()` is positionally order-preserving, i.e. a
`List.map` of the per-line closure. -/
def parse_tsv_batch_fast (lines : List Str) (columns : List Str) : List Record :=
  lines.map (fun line => parseBatchLine line columns)

example : splitTabs "a\tb".data = ["a".data, "b".data] := by decide

example : parse_tsv_line_fast "a\tb".data ["x".data, "y".data, "z".data] =
    [("x".data, "a".data), ("y".data, "b".data), ("z".data, [])] := by decide

example : parse_tsv_line_fast "a\t".data ["x".data, "y".data] =
    [("x".data, "a".data)] := by decide

example : parse_tsv_line_fast "".data ["x".data, "y".data] =
    [("y".data, [])] := by decide

example : parseBatchLine "a".data ["x".data, "y".data] = [("x".data, "a".data)] := by decide

example : parse_tsv_line_fast "a".data ["x".data, "y".data] =
    [("x".data, "a".data), ("y".data, [])] := by decide

/-- Model of `AHashMap::entry(k).or_insert_with(Vec::new).push(n)` in
`build_index`: append `n` to the key's list, creating the entry if absent. -/
def pushEntry : List (Str × List Nat) → Str → Nat → List (Str × List Nat)
  | [], k, n => [(k, [n])]
  | (k', l) :: rest, k, n =>
    if k' = k then (k', l ++ [n]) :: rest else (k', l) :: pushEntry rest k n

/-- The `enumerate` loop of `build_index` (lib.rs lines 91-97), with `n`
the current row number: a record holding the index column pushes its row
number onto that value's entry; a record lacking it is skipped. -/
def buildIndexAux (c : Str) : Nat → List Record → List (Str × List Nat) → List (Str × List Nat)
  | _, [], idx => idx
  | n, r :: rs, idx =>
    match lookupKV r c with
    | some k => buildIndexAux c (n + 1) rs (pushEntry idx k n)
    | none => buildIndexAux c (n + 1) rs idx

/-- Model of `build_index` (lib.rs lines 85-101). -/
def build_index (records : List Record) (index_column : Str) : List (Str × List Nat) :=
  buildIndexAux index_column 0 records []

/-- The shared predicate of `filter_records_fast` and `count_matching_fast`
(lib.rs lines 121-125 / 219-223): every condition's key is present in the
record with exactly the expected value (`map_or(false, |v| v == *value)`). -/
def condHolds (conditions : List (Str × Str)) (r : Record) : Bool :=
  conditions.all (fun kv => decide (lookupKV r kv.1 = some kv.2))

/-- Model of `filter_records_fast` (lib.rs lines 105-129): empty condition
set returns the input; otherwise a positionally order-preserving parallel
filter. -/
def filter_records_fast (records : List Record) (conditions : List (Str × Str)) : List Record :=
  if conditions = [] then records
  else records.filter (condHolds conditions)

/-- Model of `count_matching_fast` (lib.rs lines 204-227): empty condition
set returns the input length; otherwise count the records satisfying the
shared predicate. -/
def count_matching_fast (records : List Record) (conditions : List (Str × Str)) : Nat :=
  if conditions = [] then records.length
  else records.countP (condHolds conditions)

/-- The line loop of `read_tsv_file` (lib.rs lines 143-154): each element
is one `line_result` from `reader.lines()` (after the header skip).  The
limit check `lines_read >= max` runs before the line is consumed, then a
read error propagates, then the line is parsed and pushed. -/
def readLines {ε : Type} (columns : List Str) : List (Except ε Str) → Option Nat → Except ε (List Record)
  | _, some 0 => .ok []
  | [], _ => .ok []
  | lr :: rest, lim =>
    match lr with
    | .error e => .error e
    | .ok line =>
      match readLines columns rest (match lim with | none => none | some m => some (m - 1)) with
      | .error e => .error e
      | .ok recs => .ok (parse_tsv_line_fast line columns :: recs)

/-- Model of `read_tsv_file` (lib.rs lines 133-157).  The file handle is
its observable behaviour: `.error e` when `File::open` fails, otherwise
the list of `line_result`s the buffered reader yields.  `.skip(1)` drops
the first element unexamined. -/
def read_tsv_file {ε : Type} (file : Except ε (List (Except ε Str))) (columns : List Str)
    (limit : Option Nat) : Except ε (List Record) :=
  match file with
  | .error e => .error e
  | .ok ls => readLines columns (ls.drop 1) limit

/-- The row-serialization loop of `write_tsv_batch_fast` (lib.rs lines
188-194), with `i` the `enumerate` counter: a tab before every column but
the first, then the record's value for the column, empty if absent
(`record.get(col).unwrap_or(&String::new())`). -/
def rowLineAux (r : Record) : Nat → List Str → Str
  | _, [] => []
  | i, col :: rest =>
    (if 0 < i then ['\t'] else []) ++ (lookupKV r col).getD [] ++ rowLineAux r (i + 1) rest

/-- One data line emitted by `write_tsv_batch_fast` for a record. -/
def rowLine (columns : List Str) (r : Record) : Str :=
  rowLineAux r 0 columns

/-- Model of Rust's `columns.flatten("\t")` (lib.rs line 181). -/
def joinTab : List Str → Str
  | [] => []
  | [f] => f
  | f :: g :: fs => f ++ '\t' :: joinTab (g :: fs)

/-- Model of `write_tsv_batch_fast` (lib.rs lines 161-200): the emitted
lines (header first unless appending, then one line per record in order)
and the returned count `records.len()`. -/
def write_tsv_batch_fast (columns : List Str) (records : List Record) (append : Bool) :
    List Str × Nat :=
  ((if append then [] else [joinTab columns]) ++ records.map (rowLine columns), records.length)

/-- Model of `AHashMap::entry(k).or_insert(0) += 1` in `group_by_count`. -/
def incEntry : List (Str × Nat) → Str → List (Str × Nat)
  | [], k => [(k, 1)]
  | (k', n) :: rest, k =>
    if k' = k then (k', n + 1) :: rest else (k', n) :: incEntry rest k

/-- Model of `group_by_count` (lib.rs lines 248-261). -/
def group_by_count (records : List Record) (column : Str) : List (Str × Nat) :=
  records.foldl (fun counts r =>
    match lookupKV r column with
    | some v => incEntry counts v
    | none => counts) []

/-- Model of `AHashMap::entry(k).or_insert(0.0) += v` in `group_by_sum`.
Note `or_insert(0.0) += v` stores exactly `0.0 + v = v` on first insert. -/
def addEntry {M : Type} [AddMonoid M] : List (Str × M) → Str → M → List (Str × M)
  | [], k, v => [(k, v)]
  | (k', s) :: rest, k, v =>
    if k' = k then (k', s + v) :: rest else (k', s) :: addEntry rest k v

/-- The loop body of `group_by_sum` (lib.rs lines 272-278): a record
holding both columns whose sum-column value parses adds the value to its
group's entry; any other record leaves the accumulator unchanged. -/
def sumStep {M : Type} [AddMonoid M] (parseNum : Str → Option M) (group_column sum_column : Str)
    (sums : List (Str × M)) (r : Record) : List (Str × M) :=
  match lookupKV r group_column, lookupKV r sum_column with
  | some g, some vs =>
    match parseNum vs with
    | some v => addEntry sums g v
    | none => sums
  | _, _ => sums

/-- Model of `group_by_sum` (lib.rs lines 265-281), parameterized by the
numeric value type (an additive monoid standing in for `f64`) and by the
numeric parser standing in for `str::parse::<f64>`: a record contributes
iff it holds both columns and its sum-column value parses; otherwise it is
skipped silently. -/
def group_by_sum {M : Type} [AddMonoid M] (parseNum : Str → Option M) (records : List Record)
    (group_column sum_column : Str) : List (Str × M) :=
  records.foldl (sumStep parseNum group_column sum_column) []

/-- First-occurrence deduplication, the deterministic model of the
`AHashSet` collection step in `unique_values` (lib.rs lines 235-243);
the source's set iteration order is unspecified. -/
def dedupKeep (l : List Str) : List Str :=
  l.foldl (fun acc v => if v ∈ acc then acc else acc ++ [v]) []

/-- Model of `unique_values` (lib.rs lines 231-244): collect each record's
value for the column when present, then deduplicate. -/
def unique_values (records : List Record) (column : Str) : List Str :=
  dedupKeep (records.filterMap (fun r => lookupKV r column))

/-- A concrete numeric parser (unsigned decimal integers) used to
instantiate `group_by_sum` witnesses: `"10"` and `"5"` parse, `"abc"`
does not. -/
def parseNatStr (s : Str) : Option Int :=
  if s ≠ [] ∧ s.all Char.isDigit then
    some ((s.foldl (fun n c => n * 10 + (c.toNat - 48)) 0 : Nat) : Int)
  else none

example : parseNatStr "10".data = some 10 := by decide
example : parseNatStr "abc".data = none := by decide

/-- Spec-side predicate (claim C4): a record matches a condition set iff
for every (column, expected-value) pair it contains that column with a
value exactly equal to the expected value. -/
def recordMatches (conditions : List (Str × Str)) (r : Record) : Prop :=
  ∀ kv ∈ conditions, lookupKV r kv.1 = some kv.2

instance (conditions : List (Str × Str)) (r : Record) : Decidable (recordMatches conditions r) :=
  List.decidableBAll _ conditions

/-- Spec-side positions (claim C5): the ascending list of 0-indexed
positions, starting from `n`, of records whose indexed column equals `v`. -/
def specPositionsFrom (c v : Str) : Nat → List Record → List Nat
  | _, [] => []
  | n, r :: rs =>
    if lookupKV r c = some v then n :: specPositionsFrom c v (n + 1) rs
    else specPositionsFrom c v (n + 1) rs

/-- Spec-side positions of records whose column `c` equals `v`, 0-indexed. -/
def specPositions (records : List Record) (c v : Str) : List Nat :=
  specPositionsFrom c v 0 records

/-- Spec-side contributions (claim C6): the parsed sum-column values, in
record order, of the records of group `g` that hold both columns and whose
sum-column value parses. -/
def sumContribs {M : Type} (parseNum : Str → Option M) (records : List Record)
    (gc sc g : Str) : List M :=
  records.filterMap (fun r =>
    match lookupKV r gc, lookupKV r sc with
    | some g', some vs => if g' = g then parseNum vs else none
    | _, _ => none)

/-- Combination of an accumulated index entry with the positions still to
be pushed (proof device for the `build_index` loop invariant). -/
def combineIdx : Option (List Nat) → List Nat → Option (List Nat)
  | none, [] => none
  | none, x :: l => some (x :: l)
  | some xs, l => some (xs ++ l)

/-- Combination of an accumulated group sum with the contributions still
to be added (proof device for the `group_by_sum` loop invariant). -/
def combineSum {M : Type} [AddMonoid M] : Option M → List M → Option M
  | none, [] => none
  | none, x :: l => some ((x :: l).sum)
  | some s, l => some (s + l.sum)

example : build_index [[("a".data, "1".data)], [("a".data, "2".data)], [("a".data, "1".data)]] "a".data =
    [("1".data, [0, 2]), ("2".data, [1])] := by decide

example : group_by_sum parseNatStr
    [[("g".data, "u".data), ("v".data, "10".data)],
     [("g".data, "u".data), ("v".data, "abc".data)],
     [("g".data, "u".data), ("v".data, "5".data)]] "g".data "v".data =
    [("u".data, 15)] := by decide

/-! Helper lemmas. -/

theorem condHolds_iff (conditions : List (Str × Str)) (r : Record) :
    condHolds conditions r = true ↔ recordMatches conditions r := by
  simp [condHolds, recordMatches, List.all_eq_true]

theorem condHolds_eq_decide (conditions : List (Str × Str)) (r : Record) :
    condHolds conditions r = decide (recordMatches conditions r) := by
  by_cases hm : recordMatches conditions r
  · rw [decide_eq_true hm, (condHolds_iff conditions r).mpr hm]
  · rw [decide_eq_false hm]
    exact Bool.eq_false_iff.mpr (fun hc => hm ((condHolds_iff conditions r).mp hc))

theorem rowLineAux_succ (r : Record) : ∀ (cols : List Str) (i : Nat),
    rowLineAux r (i + 1) cols =
      (cols.map (fun col => '\t' :: (lookupKV r col).getD [])).flatten := by
  intro cols
  induction cols with
  | nil => intro i; rfl
  | cons col rest ih =>
    intro i
    simp [rowLineAux, ih (i + 1)]

theorem joinTab_cons (v : Str) (vs : List Str) :
    joinTab (v :: vs) = v ++ (vs.map (fun w => '\t' :: w)).flatten := by
  induction vs generalizing v with
  | nil => simp [joinTab]
  | cons w vs ih => simp [joinTab, ih w]

theorem rowLine_eq_joinTab (columns : List Str) (r : Record) :
    rowLine columns r = joinTab (columns.map (fun c => (lookupKV r c).getD [])) := by
  cases columns with
  | nil => rfl
  | cons c cs =>
    rw [List.map_cons, joinTab_cons, List.map_map]
    simp [rowLine, rowLineAux, rowLineAux_succ r cs 0, Function.comp_def]

theorem readLines_map_ok_none {ε : Type} (columns : List Str) (ds : List Str) :
    readLines (ε := ε) columns (ds.map .ok) none =
      .ok (ds.map (fun l => parse_tsv_line_fast l columns)) := by
  induction ds with
  | nil => rfl
  | cons d ds ih => simp [readLines, ih]

theorem readLines_map_ok_some {ε : Type} (columns : List Str) :
    ∀ (ds : List Str) (n : Nat),
      readLines (ε := ε) columns (ds.map .ok) (some n) =
        .ok ((ds.take n).map (fun l => parse_tsv_line_fast l columns)) := by
  intro ds
  induction ds with
  | nil => intro n; cases n <;> rfl
  | cons d ds ih =>
    intro n
    cases n with
    | zero => rfl
    | succ m => simp [readLines, ih m]

theorem readLines_error {ε : Type} (columns : List Str) (e : ε)
    (rest : List (Except ε Str)) :
    ∀ pre : List Str,
      readLines (ε := ε) columns (pre.map .ok ++ .error e :: rest) none = .error e := by
  intro pre
  induction pre with
  | nil => rfl
  | cons p pre ih => simp [readLines, ih]

theorem combineIdx_nil (o : Option (List Nat)) : combineIdx o [] = o := by
  cases o <;> simp [combineIdx]

theorem lookup_pushEntry (idx : List (Str × List Nat)) (k : Str) (n : Nat) (v : Str) :
    lookupKV (pushEntry idx k n) v =
      if k = v then some ((lookupKV idx v).getD [] ++ [n]) else lookupKV idx v := by
  induction idx with
  | nil =>
    by_cases h : k = v <;> simp [pushEntry, lookupKV, h]
  | cons p rest ih =>
    obtain ⟨k', l⟩ := p
    by_cases hk : k' = k
    · subst hk
      by_cases hv : k' = v <;> simp [pushEntry, lookupKV, hv]
    · by_cases hv : k' = v
      · subst hv
        have : ¬k = k' := fun h => hk h.symm
        simp [pushEntry, lookupKV, hk, this]
      · simp [pushEntry, lookupKV, hk, hv, ih]

theorem buildIndexAux_lookup (c : Str) :
    ∀ (rs : List Record) (n : Nat) (idx : List (Str × List Nat)) (v : Str),
      lookupKV (buildIndexAux c n rs idx) v =
        combineIdx (lookupKV idx v) (specPositionsFrom c v n rs) := by
  intro rs
  induction rs with
  | nil => intro n idx v; simp [buildIndexAux, specPositionsFrom, combineIdx_nil]
  | cons r rs ih =>
    intro n idx v
    rcases hr : lookupKV r c with _ | k
    · have hne : ¬lookupKV r c = some v := by simp [hr]
      simp [buildIndexAux, hr, specPositionsFrom, hne, ih]
    · by_cases hkv : k = v
      · subst hkv
        have hbld : buildIndexAux c n (r :: rs) idx =
            buildIndexAux c (n + 1) rs (pushEntry idx k n) := by
          simp [buildIndexAux, hr]
        have hspec : specPositionsFrom c k n (r :: rs) =
            n :: specPositionsFrom c k (n + 1) rs := by
          simp [specPositionsFrom, hr]
        rw [hbld, ih, hspec]
        simp only [lookup_pushEntry, if_pos rfl]
        rcases lookupKV idx k with _ | xs <;> simp [combineIdx]
      · have hne : ¬lookupKV r c = some v := by simp [hr, hkv]
        simp [buildIndexAux, hr, specPositionsFrom, hne, ih, lookup_pushEntry, hkv]

theorem specPositionsFrom_le (c v : Str) :
    ∀ (rs : List Record) (n x : Nat), x ∈ specPositionsFrom c v n rs → n ≤ x := by
  intro rs
  induction rs with
  | nil => intro n x hx; simp [specPositionsFrom] at hx
  | cons r rs ih =>
    intro n x hx
    by_cases h : lookupKV r c = some v
    · simp only [specPositionsFrom, h, if_true, List.mem_cons] at hx
      rcases hx with rfl | hx
      · exact le_refl x
      · exact Nat.le_of_succ_le (ih (n + 1) x hx)
    · simp only [specPositionsFrom, h, if_false] at hx
      exact Nat.le_of_succ_le (ih (n + 1) x hx)

theorem specPositionsFrom_pairwise (c v : Str) :
    ∀ (rs : List Record) (n : Nat), (specPositionsFrom c v n rs).Pairwise (· < ·) := by
  intro rs
  induction rs with
  | nil => intro n; simp [specPositionsFrom]
  | cons r rs ih =>
    intro n
    by_cases h : lookupKV r c = some v
    · simp only [specPositionsFrom, h, if_true]
      exact List.Pairwise.cons
        (fun x hx => Nat.lt_of_succ_le (specPositionsFrom_le c v rs (n + 1) x hx)) (ih (n + 1))
    · simp only [specPositionsFrom, h, if_false]
      exact ih (n + 1)

theorem combineSum_nil {M : Type} [AddMonoid M] (o : Option M) : combineSum o [] = o := by
  cases o <;> simp [combineSum]

theorem lookup_addEntry {M : Type} [AddMonoid M] (sums : List (Str × M)) (k : Str) (u : M)
    (g : Str) :
    lookupKV (addEntry sums k u) g =
      if k = g then
        some (match lookupKV sums g with | none => u | some s => s + u)
      else lookupKV sums g := by
  induction sums with
  | nil =>
    by_cases h : k = g <;> simp [addEntry, lookupKV, h]
  | cons p rest ih =>
    obtain ⟨k', s⟩ := p
    by_cases hk : k' = k
    · subst hk
      by_cases hv : k' = g <;> simp [addEntry, lookupKV, hv]
    · by_cases hv : k' = g
      · subst hv
        have : ¬k = k' := fun h => hk h.symm
        simp [addEntry, lookupKV, hk, this]
      · simp [addEntry, lookupKV, hk, hv, ih]

theorem sumFold_lookup {M : Type} [AddMonoid M] (parseNum : Str → Option M) (gc sc : Str) :
    ∀ (rs : List Record) (sums : List (Str × M)) (g : Str),
      lookupKV (rs.foldl (sumStep parseNum gc sc) sums) g =
        combineSum (lookupKV sums g) (sumContribs parseNum rs gc sc g) := by
  intro rs
  induction rs with
  | nil => intro sums g; simp [sumContribs, combineSum_nil]
  | cons r rs ih =>
    intro sums g
    rw [List.foldl_cons]
    rcases hg : lookupKV r gc with _ | g' <;> rcases hs : lookupKV r sc with _ | vs
    · have hc : sumContribs parseNum (r :: rs) gc sc g = sumContribs parseNum rs gc sc g := by
        simp [sumContribs, hg]
      have hstep : sumStep parseNum gc sc sums r = sums := by simp [sumStep, hg]
      rw [hstep, ih, hc]
    · have hc : sumContribs parseNum (r :: rs) gc sc g = sumContribs parseNum rs gc sc g := by
        simp [sumContribs, hg]
      have hstep : sumStep parseNum gc sc sums r = sums := by simp [sumStep, hg]
      rw [hstep, ih, hc]
    · have hc : sumContribs parseNum (r :: rs) gc sc g = sumContribs parseNum rs gc sc g := by
        simp [sumContribs, hg, hs]
      have hstep : sumStep parseNum gc sc sums r = sums := by simp [sumStep, hg, hs]
      rw [hstep, ih, hc]
    · rcases hp : parseNum vs with _ | u
      · have hc : sumContribs parseNum (r :: rs) gc sc g = sumContribs parseNum rs gc sc g := by
          simp [sumContribs, hg, hs, hp]
        have hstep : sumStep parseNum gc sc sums r = sums := by simp [sumStep, hg, hs, hp]
        rw [hstep, ih, hc]
      · have hstep : sumStep parseNum gc sc sums r = addEntry sums g' u := by
          simp [sumStep, hg, hs, hp]
        by_cases hgg : g' = g
        · subst hgg
          have hc : sumContribs parseNum (r :: rs) gc sc g' =
              u :: sumContribs parseNum rs gc sc g' := by
            simp [sumContribs, hg, hs, hp]
          rw [hstep, ih, hc]
          simp only [lookup_addEntry, if_pos rfl]
          rcases lookupKV sums g' with _ | s
          · rcases hcl : sumContribs parseNum rs gc sc g' with _ | ⟨w, ws⟩ <;>
              simp [combineSum, hcl]
          · rcases hcl : sumContribs parseNum rs gc sc g' with _ | ⟨w, ws⟩ <;>
              simp [combineSum, hcl, add_assoc]
        · have hc : sumContribs parseNum (r :: rs) gc sc g = sumContribs parseNum rs gc sc g := by
            simp [sumContribs, hg, hs, hp, hgg]
          rw [hstep, ih, hc]
          simp [lookup_addEntry, hgg]

theorem buildIndexAux_missing (c : Str) :
    ∀ (rs : List Record), (∀ r ∈ rs, lookupKV r c = none) →
      ∀ (n : Nat) (idx : List (Str × List Nat)), buildIndexAux c n rs idx = idx := by
  intro rs
  induction rs with
  | nil => intro _ n idx; rfl
  | cons r rs ih =>
    intro h n idx
    have hr : lookupKV r c = none := h r (by simp)
    have hstep : buildIndexAux c n (r :: rs) idx = buildIndexAux c (n + 1) rs idx := by
      simp [buildIndexAux, hr]
    rw [hstep]
    exact ih (fun r' hr' => h r' (by simp [hr'])) (n + 1) idx

theorem countFold_missing (c : Str) :
    ∀ (rs : List Record), (∀ r ∈ rs, lookupKV r c = none) →
      ∀ (acc : List (Str × Nat)),
        rs.foldl (fun counts r =>
          match lookupKV r c with
          | some v => incEntry counts v
          | none => counts) acc = acc := by
  intro rs
  induction rs with
  | nil => intro _ acc; rfl
  | cons r rs ih =>
    intro h acc
    have hr : lookupKV r c = none := h r (by simp)
    rw [List.foldl_cons]
    have hstep : (match lookupKV r c with
        | some v => incEntry acc v
        | none => acc) = acc := by simp [hr]
    rw [hstep]
    exact ih (fun r' hr' => h r' (by simp [hr'])) acc

theorem sumFold_missing {M : Type} [AddMonoid M] (parseNum : Str → Option M) (gc sc : Str) :
    ∀ (rs : List Record), (∀ r ∈ rs, lookupKV r gc = none ∨ lookupKV r sc = none) →
      ∀ (acc : List (Str × M)), rs.foldl (sumStep parseNum gc sc) acc = acc := by
  intro rs
  induction rs with
  | nil => intro _ acc; rfl
  | cons r rs ih =>
    intro h acc
    rw [List.foldl_cons]
    have hstep : sumStep parseNum gc sc acc r = acc := by
      rcases h r (by simp) with hr | hr <;>
        rcases hg : lookupKV r gc with _ | g' <;>
        rcases hs : lookupKV r sc with _ | vs <;>
        simp_all [sumStep]
    rw [hstep]
    exact ih (fun r' hr' => h r' (by simp [hr'])) acc

theorem keysOf_cons {α : Type} (p : Str × α) (rest : List (Str × α)) :
    keysOf (p :: rest) = p.1 :: keysOf rest := rfl

theorem keysOf_append {α : Type} (l₁ l₂ : List (Str × α)) :
    keysOf (l₁ ++ l₂) = keysOf l₁ ++ keysOf l₂ :=
  List.map_append _ _ _

theorem lookupKV_eq_none_of_not_mem {α : Type} :
    ∀ (l : List (Str × α)) (k : Str), k ∉ keysOf l → lookupKV l k = none := by
  intro l
  induction l with
  | nil => intro k _; rfl
  | cons p rest ih =>
    intro k hk
    obtain ⟨k', v⟩ := p
    rw [keysOf_cons, List.mem_cons, not_or] at hk
    have h1 : ¬k' = k := fun h => hk.1 h.symm
    simp only [lookupKV, h1, if_false]
    exact ih k hk.2

theorem insertKV_of_not_mem {α : Type} :
    ∀ (l : List (Str × α)) (k : Str) (v : α), k ∉ keysOf l → insertKV l k v = l ++ [(k, v)] := by
  intro l
  induction l with
  | nil => intro k v _; rfl
  | cons p rest ih =>
    intro k v hk
    obtain ⟨k', v'⟩ := p
    rw [keysOf_cons, List.mem_cons, not_or] at hk
    have h1 : ¬k' = k := fun h => hk.1 h.symm
    simp only [insertKV, h1, if_false, List.cons_append, List.cons.injEq, true_and]
    exact ih k v hk.2

theorem lookupKV_append_left {α : Type} :
    ∀ (l₁ l₂ : List (Str × α)) (k : Str) (v : α),
      lookupKV l₁ k = some v → lookupKV (l₁ ++ l₂) k = some v := by
  intro l₁
  induction l₁ with
  | nil => intro l₂ k v h; simp [lookupKV] at h
  | cons p rest ih =>
    intro l₂ k v h
    obtain ⟨k', v'⟩ := p
    by_cases hk : k' = k
    · simp only [lookupKV, hk, if_true] at h ⊢
      simpa using h
    · simp only [lookupKV, hk, if_false] at h ⊢
      exact ih l₂ k v h

theorem lookupKV_append_right {α : Type} :
    ∀ (l₁ l₂ : List (Str × α)) (k : Str),
      lookupKV l₁ k = none → lookupKV (l₁ ++ l₂) k = lookupKV l₂ k := by
  intro l₁
  induction l₁ with
  | nil => intro l₂ k _; rfl
  | cons p rest ih =>
    intro l₂ k h
    obtain ⟨k', v'⟩ := p
    by_cases hk : k' = k
    · simp [lookupKV, hk] at h
    · simp only [lookupKV, hk, if_false] at h ⊢
      exact ih l₂ k h

theorem keysOf_zip : ∀ (S : List Str) (vals : List Str),
    keysOf (S.zip vals) = S.take vals.length := by
  intro S
  induction S with
  | nil => intro vals; simp [keysOf]
  | cons c S ih =>
    intro vals
    cases vals with
    | nil => simp [keysOf]
    | cons v vals =>
      simp only [List.zip_cons_cons, keysOf_cons, List.length_cons, List.take_succ_cons]
      rw [ih vals]

theorem zip_append_right {α β : Type} : ∀ (xs : List β) (S : List α) (ys : List β),
    xs.length ≤ S.length →
    S.zip (xs ++ ys) = S.zip xs ++ (S.drop xs.length).zip ys := by
  intro xs
  induction xs with
  | nil => intro S ys _; simp
  | cons x xs ih =>
    intro S ys h
    cases S with
    | nil => simp at h
    | cons a S =>
      simp only [List.cons_append, List.zip_cons_cons, List.length_cons,
        List.drop_succ_cons]
      rw [ih S ys (by simpa using h)]

theorem getD_ne (S : List Str) (hnd : S.Nodup) {i j : Nat} (hij : i ≠ j) (hi : i < S.length)
    (hj : j < S.length) : S.getD i [] ≠ S.getD j [] := by
  rw [List.getD_eq_getElem S [] hi, List.getD_eq_getElem S [] hj]
  intro h
  exact hij (hnd.getElem_inj_iff.mp h)

theorem getD_not_mem_take (S : List Str) (hnd : S.Nodup) {k j : Nat} (hkj : k ≤ j)
    (hj : j < S.length) : S.getD j [] ∉ S.take k := by
  intro hmem
  rw [List.getD_eq_getElem S [] hj] at hmem
  have h1 : S[j] ∈ S.take j := by
    have htk : S.take k = (S.take j).take k := by
      rw [List.take_take, Nat.min_def, if_pos hkj]
    rw [htk] at hmem
    exact List.take_subset k (S.take j) hmem
  have h2 : S[j] ∈ S.drop j := by
    rw [List.drop_eq_getElem_cons hj]
    exact List.mem_cons_self _ _
  have hnd2 : (S.take j ++ S.drop j).Nodup := by
    rw [List.take_append_drop]; exact hnd
  exact (List.disjoint_of_nodup_append hnd2) h1 h2

theorem getD_not_mem_drop (S : List Str) (hnd : S.Nodup) {j k : Nat} (hjk : j < k)
    (hj : j < S.length) : S.getD j [] ∉ S.drop k := by
  intro hmem
  rw [List.getD_eq_getElem S [] hj] at hmem
  have h1 : S[j] ∈ S.take k := by
    rw [List.getElem_take' S hj hjk]
    exact List.getElem_mem _
  have hnd2 : (S.take k ++ S.drop k).Nodup := by
    rw [List.take_append_drop]; exact hnd
  exact (List.disjoint_of_nodup_append hnd2) h1 hmem

theorem insertLoop_spec (S : List Str) (hnd : S.Nodup) :
    ∀ (fs : List Str) (colIdx : Nat) (res : Record),
      colIdx + fs.length ≤ S.length →
      (∀ j, colIdx ≤ j → j < S.length → S.getD j [] ∉ keysOf res) →
      insertLoop S (res, colIdx) fs = (res ++ (S.drop colIdx).zip fs, colIdx + fs.length) := by
  intro fs
  induction fs with
  | nil => intro colIdx res _ _; simp [insertLoop]
  | cons f fs ih =>
    intro colIdx res hlen habs
    have hlt : colIdx < S.length := by simp at hlen; omega
    have hstep : insertLoop S (res, colIdx) (f :: fs) =
        insertLoop S (insertKV res (S.getD colIdx []) f, colIdx + 1) fs := by
      simp [insertLoop, hlt]
    rw [hstep, insertKV_of_not_mem res _ f (habs colIdx (le_refl _) hlt),
      ih (colIdx + 1) _ (by simp at hlen ⊢; omega) ?_]
    · rw [List.drop_eq_getElem_cons hlt, List.zip_cons_cons,
        ← List.getD_eq_getElem S [] hlt]
      simp [List.append_assoc]
      omega
    · intro j hj1 hj2
      rw [keysOf_append, keysOf_cons]
      intro hmem
      rcases List.mem_append.mp hmem with hm | hm
      · exact habs j (by omega) hj2 hm
      · rcases List.mem_cons.mp hm with hm' | hm'
        · exact getD_ne S hnd (by omega : j ≠ colIdx) hj2 hlt hm'
        · simp [keysOf] at hm'

theorem fillFrom_spec (S : List Str) (hnd : S.Nodup) :
    ∀ (len start : Nat) (res : Record),
      start + len ≤ S.length →
      (∀ j, start ≤ j → j < S.length → S.getD j [] ∉ keysOf res) →
      fillFrom S res (List.range' start len) =
        res ++ (S.drop start).zip (List.replicate len []) := by
  intro len
  induction len with
  | zero => intro start res _ _; simp [fillFrom]
  | succ m ih =>
    intro start res hlen habs
    have hlt : start < S.length := by omega
    rw [List.range'_succ]
    have hstep : fillFrom S res (start :: List.range' (start + 1) m) =
        fillFrom S (insertKV res (S.getD start []) []) (List.range' (start + 1) m) := rfl
    rw [hstep, insertKV_of_not_mem res _ [] (habs start (le_refl _) hlt),
      ih (start + 1) _ (by omega) ?_]
    · rw [List.drop_eq_getElem_cons hlt, List.replicate_succ, List.zip_cons_cons,
        ← List.getD_eq_getElem S [] hlt]
      simp [List.append_assoc]
    · intro j hj1 hj2
      rw [keysOf_append, keysOf_cons]
      intro hmem
      rcases List.mem_append.mp hmem with hm | hm
      · exact habs j (by omega) hj2 hm
      · rcases List.mem_cons.mp hm with hm' | hm'
        · exact getD_ne S hnd (by omega : j ≠ start) hj2 hlt hm'
        · simp [keysOf] at hm'

theorem nil_lookup_getD_map (S : List Str) :
    S.map (fun c => (lookupKV ([] : Record) c).getD []) = List.replicate S.length [] := by
  induction S with
  | nil => rfl
  | cons c S ih => simp [lookupKV, List.replicate_succ, ih]

theorem map_getD_zip : ∀ (S : List Str), S.Nodup → ∀ (vals : List Str),
    vals.length ≤ S.length →
    S.map (fun c => (lookupKV (S.zip vals) c).getD []) =
      vals ++ List.replicate (S.length - vals.length) [] := by
  intro S
  induction S with
  | nil =>
    intro _ vals hv
    have : vals = [] := List.length_eq_zero.mp (Nat.le_zero.mp hv)
    subst this; rfl
  | cons c S ih =>
    intro hnd vals hv
    have hc : c ∉ S := (List.nodup_cons.mp hnd).1
    have hnd2 : S.Nodup := (List.nodup_cons.mp hnd).2
    cases vals with
    | nil =>
      have := nil_lookup_getD_map (c :: S)
      simpa using this
    | cons v vals =>
      simp only [List.zip_cons_cons, List.map_cons]
      have hhead : (lookupKV ((c, v) :: S.zip vals) c).getD [] = v := by
        simp [lookupKV]
      have htail : S.map (fun x => (lookupKV ((c, v) :: S.zip vals) x).getD []) =
          S.map (fun x => (lookupKV (S.zip vals) x).getD []) := by
        apply List.map_congr_left
        intro x hx
        have hne : ¬c = x := fun h => hc (h ▸ hx)
        simp [lookupKV, hne]
      rw [hhead, htail, ih hnd2 vals (by simpa using hv)]
      simp

theorem getD_cons_empty (tail : Record) (k0 key : Str) (h : lookupKV tail k0 = none) :
    (lookupKV ((k0, ([] : Str)) :: tail) key).getD [] = (lookupKV tail key).getD [] := by
  by_cases hk : k0 = key
  · subst hk; simp [lookupKV, h]
  · simp [lookupKV, hk]

theorem splitTabs_ne_nil : ∀ (L : Str), splitTabs L ≠ [] := by
  intro L
  cases L with
  | nil => simp [splitTabs]
  | cons c rest =>
    by_cases h : c = '\t'
    · simp [splitTabs, h]
    · simp only [splitTabs, h, if_false]
      rcases hs : splitTabs rest with _ | ⟨f, fs⟩ <;> simp

theorem joinTab_splitTabs : ∀ (L : Str), joinTab (splitTabs L) = L := by
  intro L
  induction L with
  | nil => rfl
  | cons c rest ih =>
    rcases hs : splitTabs rest with _ | ⟨f, fs⟩
    · exact absurd hs (splitTabs_ne_nil rest)
    · rw [hs] at ih
      by_cases h : c = '\t'
      · subst h
        have h1 : splitTabs ('\t' :: rest) = [] :: f :: fs := by simp [splitTabs, hs]
        rw [h1]
        have h2 : joinTab ([] :: f :: fs) = [] ++ '\t' :: joinTab (f :: fs) := rfl
        rw [h2, List.nil_append, ih]
      · have h1 : splitTabs (c :: rest) = (c :: f) :: fs := by simp [splitTabs, h, hs]
        rw [h1]
        cases fs with
        | nil =>
          have h3 : joinTab [f] = f := rfl
          rw [h3] at ih
          show c :: f = c :: rest
          rw [ih]
        | cons g gs =>
          have h2 : joinTab ((c :: f) :: g :: gs) = (c :: f) ++ '\t' :: joinTab (g :: gs) := rfl
          have h3 : joinTab (f :: g :: gs) = f ++ '\t' :: joinTab (g :: gs) := rfl
          rw [h3] at ih
          rw [h2, ← ih]
          rfl

theorem joinTab_replicate_nil : ∀ (m : Nat),
    joinTab (List.replicate (m + 1) []) = List.replicate m '\t' := by
  intro m
  induction m with
  | zero => rfl
  | succ n ih =>
    have h1 : List.replicate (n + 2) ([] : Str) = [] :: [] :: List.replicate n [] := rfl
    have h2 : List.replicate (n + 1) ([] : Str) = [] :: List.replicate n [] := rfl
    rw [h1]
    show ([] : Str) ++ '\t' :: joinTab ([] :: List.replicate n []) = List.replicate (n + 1) '\t'
    rw [List.nil_append, ← h2, ih]
    rfl

theorem joinTab_append_replicate : ∀ (fs : List Str), fs ≠ [] → ∀ (m : Nat),
    joinTab (fs ++ List.replicate m []) = joinTab fs ++ List.replicate m '\t' := by
  intro fs
  induction fs with
  | nil => intro h; exact absurd rfl h
  | cons f fs ih =>
    intro _ m
    cases fs with
    | nil =>
      cases m with
      | zero => simp
      | succ n =>
        have h1 : [f] ++ List.replicate (n + 1) ([] : Str) =
            f :: [] :: List.replicate n [] := rfl
        rw [h1]
        show f ++ '\t' :: joinTab ([] :: List.replicate n []) = joinTab [f] ++ List.replicate (n + 1) '\t'
        have h2 : joinTab ([] :: List.replicate n []) = joinTab (List.replicate (n + 1) []) := rfl
        rw [h2, joinTab_replicate_nil n]
        show f ++ '\t' :: List.replicate n '\t' = f ++ List.replicate (n + 1) '\t'
        rw [List.replicate_succ]
    | cons g gs =>
      have h1 : (f :: g :: gs) ++ List.replicate m ([] : Str) =
          f :: ((g :: gs) ++ List.replicate m []) := rfl
      rw [h1]
      rcases hgg : (g :: gs) ++ List.replicate m ([] : Str) with _ | ⟨w, ws⟩
      · simp at hgg
      have h2 : joinTab (f :: w :: ws) = f ++ '\t' :: joinTab (w :: ws) := rfl
      rw [h2, ← hgg, ih (by simp) m]
      show f ++ '\t' :: (joinTab (g :: gs) ++ List.replicate m '\t') =
        (f ++ '\t' :: joinTab (g :: gs)) ++ List.replicate m '\t'
      simp

theorem parse_serialize_vals (L : Str) (S : List Str) (hnd : S.Nodup)
    (hk : (splitTabs L).length ≤ S.length) :
    S.map (fun c => (lookupKV (parse_tsv_line_fast L S) c).getD []) =
      splitTabs L ++ List.replicate (S.length - (splitTabs L).length) [] := by
  rcases List.eq_nil_or_concat' (splitTabs L) with hfe | ⟨body, lf, hF⟩
  · exact absurd hfe (splitTabs_ne_nil L)
  have hlenF : (splitTabs L).length = body.length + 1 := by rw [hF]; simp
  have hbl : body.length + 1 ≤ S.length := hlenF ▸ hk
  have hblt : body.length < S.length := by omega
  have hdrop : (splitTabs L).dropLast = body := by rw [hF]; exact List.dropLast_concat
  have hlast : (splitTabs L).getLastD [] = lf := by rw [hF]; exact List.getLastD_concat _ _ _
  have hloop : insertLoop S ([], 0) body = (S.zip body, body.length) := by
    rw [insertLoop_spec S hnd body 0 [] (by omega)
      (by intro j _ _ hm; simp [keysOf] at hm)]
    simp
  have hparse : parse_tsv_line_fast L S =
      fillEmpty S (body.length + 1)
        (if body.length < S.length ∧ lf ≠ [] then
          insertKV (S.zip body) (S.getD body.length []) lf
        else S.zip body) := by
    simp only [parse_tsv_line_fast]
    rw [hdrop, hlast, hloop]
  by_cases hlf : lf = []
  · subst hlf
    rw [hparse, if_neg (by simp)]
    unfold fillEmpty
    rw [fillFrom_spec S hnd (S.length - (body.length + 1)) (body.length + 1) _ (by omega)
      (by intro j hj1 hj2
          rw [keysOf_zip]
          exact getD_not_mem_take S hnd (by omega) hj2)]
    set m := S.length - (body.length + 1) with hm
    have hT : lookupKV ((S.drop (body.length + 1)).zip (List.replicate m ([] : Str)))
        (S.getD body.length []) = none := by
      apply lookupKV_eq_none_of_not_mem
      rw [keysOf_zip]
      intro hmem
      exact getD_not_mem_drop S hnd (Nat.lt_succ_self body.length) hblt
        (List.take_subset _ _ hmem)
    have hR' : S.zip (body ++ [] :: List.replicate m []) =
        S.zip body ++ (S.getD body.length [], ([] : Str)) ::
          (S.drop (body.length + 1)).zip (List.replicate m []) := by
      rw [zip_append_right body S _ (by omega)]
      congr 1
      rw [List.drop_eq_getElem_cons hblt, List.zip_cons_cons,
        ← List.getD_eq_getElem S [] hblt]
    have hpoint : ∀ c ∈ S,
        (lookupKV (S.zip body ++
            (S.drop (body.length + 1)).zip (List.replicate m [])) c).getD [] =
          (lookupKV (S.zip (body ++ [] :: List.replicate m [])) c).getD [] := by
      intro c _
      rw [hR']
      rcases hlook : lookupKV (S.zip body) c with _ | v
      · rw [lookupKV_append_right _ _ _ hlook, lookupKV_append_right _ _ _ hlook]
        exact (getD_cons_empty _ _ c hT).symm
      · rw [lookupKV_append_left _ _ _ _ hlook, lookupKV_append_left _ _ _ _ hlook]
    rw [List.map_congr_left hpoint,
      map_getD_zip S hnd _ (by simp; omega)]
    rw [hF]
    have h0 : S.length - (body ++ ([] : Str) :: List.replicate m []).length = 0 := by
      simp only [List.length_append, List.length_cons, List.length_replicate]
      omega
    rw [h0]
    have h1 : S.length - (body ++ [([] : Str)]).length = m := by
      simp only [List.length_append, List.length_cons, List.length_nil]
    rw [h1]
    simp
  · rw [hparse, if_pos ⟨hblt, hlf⟩,
      insertKV_of_not_mem _ _ _
        (by rw [keysOf_zip]; exact getD_not_mem_take S hnd (le_refl _) hblt)]
    have hzipF : S.zip (splitTabs L) = S.zip body ++ [(S.getD body.length [], lf)] := by
      rw [hF, zip_append_right body S [lf] (by omega)]
      congr 1
      rw [List.drop_eq_getElem_cons hblt, List.zip_cons_cons, List.zip_nil_right,
        ← List.getD_eq_getElem S [] hblt]
    rw [← hzipF]
    unfold fillEmpty
    rw [fillFrom_spec S hnd (S.length - (body.length + 1)) (body.length + 1) _ (by omega)
      (by intro j hj1 hj2
          rw [keysOf_zip, hlenF]
          exact getD_not_mem_take S hnd (by omega) hj2)]
    have hzip2 : S.zip (splitTabs L ++
        List.replicate (S.length - (body.length + 1)) []) =
        S.zip (splitTabs L) ++ (S.drop (body.length + 1)).zip
          (List.replicate (S.length - (body.length + 1)) []) := by
      rw [zip_append_right _ S _ hk, hlenF]
    rw [← hzip2, map_getD_zip S hnd _ (by simp [hlenF]; omega)]
    have h0 : S.length -
        (splitTabs L ++ List.replicate (S.length - (body.length + 1)) ([] : Str)).length = 0 := by
      simp [hlenF]; omega
    rw [h0, hlenF]
    simp

/-! Claim theorems. -/

/-- C1 (code bug): `parse_tsv_line_fast` violates the all-columns-present
contract.  On the line `"a\t"` with schema `["x", "y"]` the tab loop ends
with `col_idx = 1` and `last_pos = bytes.len()`, so the last-field insert
is skipped, yet the fill loop starts at `col_idx + 1 = 2`: column `"y"` is
never inserted and the record has one key instead of two. -/
theorem parse_line_drops_column_on_trailing_tab :
    lookupKV (parse_tsv_line_fast "a\t".data ["x".data, "y".data]) "y".data = none ∧
    (parse_tsv_line_fast "a\t".data ["x".data, "y".data]).length = 1 ∧
    lookupKV (parse_tsv_line_fast "".data ["x".data, "y".data]) "x".data = none := by
  decide

/-- C2 (code bug): the inlined per-line parser of `parse_tsv_batch_fast`
has no fill loop, so on a line with fewer fields than schema columns the
batch record omits the trailing columns that `parse_tsv_line_fast`
materializes as empty strings: the batch output record differs from the
line-parser record on the same line and schema. -/
theorem batch_parse_differs_from_line_parse :
    parse_tsv_batch_fast ["a".data] ["x".data, "y".data] = [[("x".data, "a".data)]] ∧
    parse_tsv_line_fast "a".data ["x".data, "y".data] =
      [("x".data, "a".data), ("y".data, [])] ∧
    parse_tsv_batch_fast ["a".data] ["x".data, "y".data] ≠
      [parse_tsv_line_fast "a".data ["x".data, "y".data]] := by
  decide

/-- C3: `count_matching_fast` equals the length of `filter_records_fast`
on the same records and condition set. -/
theorem count_matching_eq_filter_length (records : List Record)
    (conditions : List (Str × Str)) :
    count_matching_fast records conditions = (filter_records_fast records conditions).length := by
  unfold count_matching_fast filter_records_fast
  by_cases h : conditions = [] <;> simp [h, List.countP_eq_length_filter]

/-- C4: `filter_records_fast` returns exactly the ordered subsequence of
the input consisting of the records that, for every condition pair,
contain the conditioned column with exactly the expected value (a record
missing a conditioned column is excluded, since `lookupKV` then returns
`none`); and an empty condition set returns the input unchanged. -/
theorem filter_records_spec (records : List Record) (conditions : List (Str × Str)) :
    filter_records_fast records conditions =
      records.filter (fun r => decide (recordMatches conditions r)) ∧
    (filter_records_fast records conditions).Sublist records ∧
    filter_records_fast records [] = records := by
  have hmain : filter_records_fast records conditions =
      records.filter (fun r => decide (recordMatches conditions r)) := by
    unfold filter_records_fast
    by_cases h : conditions = []
    · subst h
      simp [recordMatches]
    · simp only [h, if_false]
      exact List.filter_congr (fun r _ => condHolds_eq_decide conditions r)
  refine ⟨hmain, ?_, by simp [filter_records_fast]⟩
  rw [hmain]
  exact List.filter_sublist records

/-- C8: a (successful) `write_tsv_batch_fast` emits, when not appending,
one header line joining the schema column names with tabs, then one line
per record in collection order joining, in schema column order, each
column's value (empty when the record lacks the column) with tabs; when
appending, no header line; and it returns the input record count. -/
theorem write_tsv_batch_spec (columns : List Str) (records : List Record) (append : Bool) :
    write_tsv_batch_fast columns records append =
      ((if append then [] else [joinTab columns]) ++
         records.map (fun r => joinTab (columns.map (fun c => (lookupKV r c).getD []))),
       records.length) := by
  unfold write_tsv_batch_fast
  rw [List.map_congr_left (fun r _ => rowLine_eq_joinTab columns r)]

/-- C9: `read_tsv_file` surfaces an open failure as an error; on a
successfully-opened file it unconditionally skips the first line and
parses the remaining lines in order; a row limit `n` yields exactly the
first `n` parsed records (fewer if fewer data lines exist) with no error;
and a line-read failure among the consumed lines propagates as an error. -/
theorem read_tsv_file_spec {ε : Type} (e e' : ε) (hdr : Except ε Str) (ds pre : List Str)
    (rest : List (Except ε Str)) (columns : List Str) (n : Nat) (lim : Option Nat) :
    read_tsv_file (.error e) columns lim = .error e ∧
    read_tsv_file (.ok (hdr :: ds.map .ok)) columns none =
      .ok (ds.map (fun l => parse_tsv_line_fast l columns)) ∧
    read_tsv_file (.ok (hdr :: ds.map .ok)) columns (some n) =
      .ok ((ds.take n).map (fun l => parse_tsv_line_fast l columns)) ∧
    read_tsv_file (.ok (hdr :: (pre.map .ok ++ .error e' :: rest))) columns none = .error e' := by
  refine ⟨rfl, ?_, ?_, ?_⟩
  · simpa [read_tsv_file] using readLines_map_ok_none columns ds
  · simpa [read_tsv_file] using readLines_map_ok_some columns ds n
  · simpa [read_tsv_file] using readLines_error columns e' rest pre

/-- C5: `build_index` maps a value `v` to exactly the ascending list of
0-indexed positions of the records whose indexed column equals `v` (no
entry at all when no record holds `v` in that column, so records lacking
the column contribute nothing); the position list is strictly increasing,
hence duplicate-free. -/
theorem build_index_spec (records : List Record) (c v : Str) :
    lookupKV (build_index records c) v =
      (if specPositions records c v = [] then none
       else some (specPositions records c v)) ∧
    (specPositions records c v).Pairwise (· < ·) := by
  refine ⟨?_, specPositionsFrom_pairwise c v records 0⟩
  unfold build_index specPositions
  rw [buildIndexAux_lookup]
  rcases hsp : specPositionsFrom c v 0 records with _ | ⟨x, l⟩ <;>
    simp [combineIdx, lookupKV]

/-- C6: `group_by_sum` maps a group `g` to the sum of the successfully
parsed sum-column values of the records holding both columns in group
`g`; an unparseable value contributes nothing and raises no error, a
record missing either column is excluded, and `g` has an entry iff at
least one record contributed; in particular a group with sum-column
values "10", "abc", "5" sums to the value of "10" plus the value of "5"
(15 for a numeric parser). -/
theorem group_by_sum_spec {M : Type} [AddMonoid M] (parseNum : Str → Option M)
    (records : List Record) (gc sc g : Str) (a b : M)
    (h10 : parseNum "10".data = some a) (habc : parseNum "abc".data = none)
    (h5 : parseNum "5".data = some b) :
    (lookupKV (group_by_sum parseNum records gc sc) g =
       if (sumContribs parseNum records gc sc g).isEmpty then none
       else some (sumContribs parseNum records gc sc g).sum) ∧
    lookupKV (group_by_sum parseNum
        [[("g".data, "u".data), ("v".data, "10".data)],
         [("g".data, "u".data), ("v".data, "abc".data)],
         [("g".data, "u".data), ("v".data, "5".data)]] "g".data "v".data) "u".data =
      some (a + b) := by
  constructor
  · unfold group_by_sum
    rw [sumFold_lookup]
    rcases hsp : sumContribs parseNum records gc sc g with _ | ⟨w, ws⟩ <;>
      simp [combineSum, lookupKV]
  · simp [group_by_sum, sumStep, lookupKV, addEntry, h10, habc, h5]

/-- C10: on a column name held by no record, `build_index`,
`group_by_count` and `group_by_sum` (whether the missing column is the
group or the sum column) return an empty mapping, and `unique_values`
returns an empty collection; none reports an error. -/
theorem missing_column_ops_empty {M : Type} [AddMonoid M] (parseNum : Str → Option M)
    (records : List Record) (c gc sc : Str)
    (h : ∀ r ∈ records, lookupKV r c = none) :
    build_index records c = [] ∧
    group_by_count records c = [] ∧
    group_by_sum parseNum records c sc = [] ∧
    group_by_sum parseNum records gc c = [] ∧
    unique_values records c = [] := by
  refine ⟨buildIndexAux_missing c records h 0 [],
    countFold_missing c records h [],
    sumFold_missing parseNum c sc records (fun r hr => Or.inl (h r hr)) [],
    sumFold_missing parseNum gc c records (fun r hr => Or.inr (h r hr)) [],
    ?_⟩
  unfold unique_values
  rw [List.filterMap_eq_nil_iff.mpr h]
  rfl

/-- Witness for C10 at a concrete record collection and absent column. -/
theorem missing_column_ops_empty_witness :
    (∀ r ∈ [[("a".data, "1".data)]], lookupKV r "z".data = none) ∧
    (build_index [[("a".data, "1".data)]] "z".data = [] ∧
     group_by_count [[("a".data, "1".data)]] "z".data = [] ∧
     group_by_sum parseNatStr [[("a".data, "1".data)]] "z".data "s".data = [] ∧
     group_by_sum parseNatStr [[("a".data, "1".data)]] "g".data "z".data = [] ∧
     unique_values [[("a".data, "1".data)]] "z".data = []) :=
  ⟨by decide,
   missing_column_ops_empty parseNatStr [[("a".data, "1".data)]] "z".data "g".data "s".data
     (by decide)⟩

/-- C7 (counterexample): parse-then-serialize does NOT return the original
line for every field count ≤ |S|.  With schema ["x", "y"] the one-field
line "a" re-serializes to "a\t" (the padded empty column gains a tab), and
with the duplicate-name schema ["x", "x"] the two-field line "a\tb"
re-serializes to "b\tb" (the second insert overwrites the first). -/
theorem parse_write_roundtrip_cex :
    ((splitTabs "a".data).length ≤ (["x".data, "y".data] : List Str).length ∧
      rowLine ["x".data, "y".data]
        (parse_tsv_line_fast "a".data ["x".data, "y".data]) ≠ "a".data) ∧
    ((splitTabs "a\tb".data).length ≤ (["x".data, "x".data] : List Str).length ∧
      rowLine ["x".data, "x".data]
        (parse_tsv_line_fast "a\tb".data ["x".data, "x".data]) ≠ "a\tb".data) := by
  decide

/-- C7 (amended): for a schema of pairwise-distinct column names and a
line whose tab-delimited field count `k` is at most the schema size,
parsing then re-serializing with the write logic yields the original line
followed by `|S| - k` trailing tab characters (one per padded empty
column); in particular the round trip is the identity exactly when
`k = |S|`. -/
theorem parse_write_roundtrip (L : Str) (S : List Str) (hnd : S.Nodup)
    (hk : (splitTabs L).length ≤ S.length) :
    rowLine S (parse_tsv_line_fast L S) =
      L ++ List.replicate (S.length - (splitTabs L).length) '\t' := by
  rw [rowLine_eq_joinTab, parse_serialize_vals L S hnd hk,
    joinTab_append_replicate (splitTabs L) (splitTabs_ne_nil L) _,
    joinTab_splitTabs]

/-- Witness for C7 (amended) at a full-width line (identity round trip)
instantiated from the amended theorem. -/
theorem parse_write_roundtrip_witness :
    ((["x".data, "y".data] : List Str).Nodup ∧
      (splitTabs "a\tb".data).length ≤ (["x".data, "y".data] : List Str).length) ∧
    rowLine ["x".data, "y".data]
        (parse_tsv_line_fast "a\tb".data ["x".data, "y".data]) =
      "a\tb".data ++
        List.replicate
          ((["x".data, "y".data] : List Str).length - (splitTabs "a\tb".data).length) '\t' :=
  ⟨⟨by decide, by decide⟩,
   parse_write_roundtrip "a\tb".data ["x".data, "y".data] (by decide) (by decide)⟩

/-- Witness for C6: with the concrete decimal parser, the group whose
sum-column values are "10", "abc", "5" sums to 10 + 5 = 15. -/
theorem group_by_sum_spec_witness :
    (parseNatStr "10".data = some 10 ∧ parseNatStr "abc".data = none ∧
      parseNatStr "5".data = some 5) ∧
    ((lookupKV (group_by_sum parseNatStr [] "g".data "v".data) "u".data =
        if (sumContribs parseNatStr [] "g".data "v".data "u".data).isEmpty then none
        else some (sumContribs parseNatStr [] "g".data "v".data "u".data).sum) ∧
      lookupKV (group_by_sum parseNatStr
          [[("g".data, "u".data), ("v".data, "10".data)],
           [("g".data, "u".data), ("v".data, "abc".data)],
           [("g".data, "u".data), ("v".data, "5".data)]] "g".data "v".data) "u".data =
        some (10 + 5)) :=
  ⟨⟨by decide, by decide, by decide⟩,
   group_by_sum_spec parseNatStr [] "g".data "v".data "u".data 10 5
     (by decide) (by decide) (by decide)⟩

end Tsv
